import Mathlib

/-! A sequential model of `ts_hashmap.c`.

The hash map of `src/ts_hashmap.c` is a fixed array of `capacity` bucket heads, each the head
of a singly linked, `NULL`-terminated chain of `ts_entry_t` nodes.

Embedding choices.

* A chain (a bucket head and the `next` links behind it) is a `List ts_entry_t`; `NULL` is `[]`.
* `table` is the list of the chains, `table[i]` being element `i`.
* Keys and values are C `int`s, modelled as integers.  The only place where their width is
  visible is the bucket index `(unsigned int) key % map->capacity`, which is modelled with the
  explicit reductions modulo `2^32` (`toUnsigned`, `toInt`).
* `size` and `numOps` are C `int`s changed only by `++` and `--`.  Signed overflow is undefined
  in C, so the model describes the executions in which the counters stay representable and
  uses integer `+ 1` and `- 1`.
* `malloc` in `put` may fail; its outcome is the explicit argument `malloc_ok`.
* An index outside the table is undefined in C; there the read gives the empty chain and the
  write is dropped.  With `0 < capacity` and a table of `capacity` heads (`tableAllocated`)
  every index is inside the table.
* At `capacity = 0` the index expression divides by zero in C, while `%` here returns a value;
  the statements about calls therefore assume `0 < capacity`.
* The mutex calls have no effect on the data of a single-threaded run and are not part of the
  state.  Their order relative to the accesses to the guarded data is given, per function, by
  the event lists `get_events`, `put_events` and `del_events`.
* `malloc` does not clear memory: the content of the block that `initmap` obtains for the table
  is an argument of `initmap`.
-/

namespace TsHashmap

/-- The constant `INT_MAX` of `limits.h` for a 32-bit `int`. -/
def INT_MAX : Int := 2147483647

/-- The struct `ts_entry_t` of `ts_hashmap.h` without its `next` link, which is the position
in the chain. -/
structure ts_entry_t where
  key : Int
  value : Int
deriving DecidableEq

/-- A bucket chain: the entries reached from a bucket head through `next`, in order. -/
abbrev Chain := List ts_entry_t

/-- The struct `ts_hashmap_t` of `ts_hashmap.h`. -/
structure ts_hashmap_t where
  table : List Chain
  numOps : Int
  capacity : Int
  size : Int
deriving DecidableEq

/-- The conversion `(unsigned int) x` of a 32-bit value. -/
def toUnsigned (x : Int) : Int := x % 4294967296

/-- The conversion of an `unsigned int` result back to `int` (two's complement). -/
def toInt (x : Int) : Int :=
  if x % 4294967296 < 2147483648 then x % 4294967296 else x % 4294967296 - 4294967296

/-- The statement `int index = (unsigned int) key % map->capacity;` of `get`, `put` and `del`:
the cast binds tighter than `%`, and `capacity` is converted to `unsigned int` by the usual
arithmetic conversions.  The value is that of the C expression for `0 < capacity <= INT_MAX`;
at `capacity = 0` the C division traps, so statements about calls assume `0 < capacity`. -/
def bucketIndex (capacity key : Int) : Int :=
  toInt (toUnsigned key % toUnsigned capacity)

/-- The read `map->table[index]`. -/
def bucket (m : ts_hashmap_t) (index : Int) : Chain :=
  m.table.getD index.toNat []

/-- The write `map->table[index] = ...` (through the head or through a `next` link of the
chain of that bucket). -/
def setBucket (m : ts_hashmap_t) (index : Int) (c : Chain) : List Chain :=
  m.table.set index.toNat c

/-- The loop of `get` over the chain: on a key match the body only unlocks the mutex and goes
on to `entry->next`; the function returns `INT_MAX` after the loop. -/
def get_loop (key : Int) : Chain → Int
  | [] => INT_MAX
  | entry :: next => if entry.key = key then get_loop key next else get_loop key next

/-- The function `get` of `ts_hashmap.c`. -/
def get (m : ts_hashmap_t) (key : Int) : Int :=
  let index := bucketIndex m.capacity key
  get_loop key (bucket m index)

/-- The loop of `put` over the chain: on the first entry with the key, its value is replaced
in place and the old value returned (`some`); `none` when the loop ends without a match. -/
def put_loop (key value : Int) : Chain → Option (Chain × Int)
  | [] => none
  | entry :: next =>
    if entry.key = key then some ({ entry with value := value } :: next, entry.value)
    else
      match put_loop key value next with
      | some (next', old_value) => some (entry :: next', old_value)
      | none => none

/-- The function `put` of `ts_hashmap.c`; `malloc_ok` tells whether `malloc` of the new entry
succeeds.  The new entry is linked behind the last entry (`prev->next`), or becomes the head
of an empty bucket. -/
def put (m : ts_hashmap_t) (key value : Int) (malloc_ok : Bool) : ts_hashmap_t × Int :=
  let index := bucketIndex m.capacity key
  match put_loop key value (bucket m index) with
  | some (chain', old_value) => ({ m with table := setBucket m index chain' }, old_value)
  | none =>
    if malloc_ok then
      ({ m with table := setBucket m index (bucket m index ++ [⟨key, value⟩]),
                size := m.size + 1, numOps := m.numOps + 1 }, INT_MAX)
    else (m, INT_MAX)

/-- The loop of `del` over the chain: the first entry with the key is unlinked and its value
returned (`some`); `none` when the loop ends without a match. -/
def del_loop (key : Int) : Chain → Option (Chain × Int)
  | [] => none
  | entry :: next =>
    if entry.key = key then some (next, entry.value)
    else
      match del_loop key next with
      | some (next', old_value) => some (entry :: next', old_value)
      | none => none

/-- The function `del` of `ts_hashmap.c`. -/
def del (m : ts_hashmap_t) (key : Int) : ts_hashmap_t × Int :=
  let index := bucketIndex m.capacity key
  match del_loop key (bucket m index) with
  | some (chain', old_value) =>
    ({ m with table := setBucket m index chain', size := m.size - 1, numOps := m.numOps - 1 },
      old_value)
  | none => (m, INT_MAX)

/-! ## Calls and runs -/

/-- One call of the interface, as issued by `threadwork` in `main.c`; a `put` carries the
outcome of its `malloc`. -/
inductive Op where
  | put (key value : Int) (malloc_ok : Bool)
  | get (key : Int)
  | del (key : Int)
deriving DecidableEq

/-- The state after one call and the value it returns. -/
def step (m : ts_hashmap_t) : Op → ts_hashmap_t × Int
  | Op.put key value malloc_ok => put m key value malloc_ok
  | Op.get key => (m, get m key)
  | Op.del key => del m key

/-- The state after a sequence of calls. -/
def run (m : ts_hashmap_t) : List Op → ts_hashmap_t
  | [] => m
  | op :: ops => run (step m op).1 ops

/-- The values returned by a sequence of calls, in order. -/
def returns (m : ts_hashmap_t) : List Op → List Int
  | [] => []
  | op :: ops => (step m op).2 :: returns (step m op).1 ops

/-- The freshly created map with all buckets empty: the fields as `initmap` sets them
(`capacity`, `size = 0`, `numOps = 0`) and a table of `capacity` empty chains. -/
def freshMap (capacity : Int) : ts_hashmap_t :=
  { table := List.replicate capacity.toNat [], numOps := 0, capacity := capacity, size := 0 }

/-! ## Predicates on states -/

/-- The table has exactly `capacity` bucket heads and `capacity` is a value of type `int`. -/
def tableAllocated (m : ts_hashmap_t) : Prop :=
  m.capacity ≤ INT_MAX ∧ m.table.length = m.capacity.toNat

/-- The value stored for a key in one chain: that of the first entry with the key. -/
def chainFind (key : Int) : Chain → Option Int
  | [] => none
  | entry :: next => if entry.key = key then some entry.value else chainFind key next

/-- The keys of a chain, in chain order. -/
def chainKeys (c : Chain) : List Int := c.map ts_entry_t.key

/-- The value the map holds for a key: the one found in the chain of the key's bucket. -/
def lookup (m : ts_hashmap_t) (key : Int) : Option Int :=
  chainFind key (bucket m (bucketIndex m.capacity key))

/-- Every entry stored in bucket `i` has a key whose bucket index is `i`. -/
def bucketsMatch (m : ts_hashmap_t) : Prop :=
  ∀ i, i < m.table.length → ∀ e ∈ m.table.getD i [], bucketIndex m.capacity e.key = (i : Int)

/-- No bucket chain contains two entries with the same key. -/
def noDupKeys (m : ts_hashmap_t) : Prop :=
  ∀ c ∈ m.table, (chainKeys c).Nodup

/-- A well-formed map: each entry is stored in the bucket of its key and no chain repeats a
key. -/
def wellFormed (m : ts_hashmap_t) : Prop :=
  bucketsMatch m ∧ noDupKeys m

instance (m : ts_hashmap_t) : Decidable (tableAllocated m) := by
  unfold tableAllocated; infer_instance

instance (m : ts_hashmap_t) : Decidable (bucketsMatch m) := by
  unfold bucketsMatch; infer_instance

instance (m : ts_hashmap_t) : Decidable (noDupKeys m) := by
  unfold noDupKeys; infer_instance

instance (m : ts_hashmap_t) : Decidable (wellFormed m) := by
  unfold wellFormed; infer_instance

/-- All entries of the table, bucket after bucket. -/
def allEntries (m : ts_hashmap_t) : List ts_entry_t := m.table.flatten

/-- The total number of entries in all bucket chains. -/
def entryCount (m : ts_hashmap_t) : Nat := (m.table.map List.length).sum

/-- The number of distinct keys stored anywhere in the table. -/
def distinctKeys (m : ts_hashmap_t) : Nat := ((allEntries m).map ts_entry_t.key).dedup.length

/-! ## The reference associative mapping -/

/-- A mutating call whose allocation, if any, succeeds. -/
inductive Mutation where
  | put (key value : Int)
  | del (key : Int)
deriving DecidableEq

/-- The call of the interface that a mutation stands for. -/
def Mutation.toOp : Mutation → Op
  | Mutation.put key value => Op.put key value true
  | Mutation.del key => Op.del key

/-- The reference associative mapping of the specification: key to optional value. -/
abbrev RefMap := Int → Option Int

/-- The reference mapping with no key. -/
def emptyRef : RefMap := fun _ => none

/-- The reference behaviour of one mutation: `put` stores the value and returns the previous
value or absent; `del` removes the key and returns the removed value or absent. -/
def refStep (r : RefMap) : Mutation → RefMap × Option Int
  | Mutation.put key value => (Function.update r key (some value), r key)
  | Mutation.del key => (Function.update r key none, r key)

/-- The results of a sequence of mutations on the reference mapping, in order. -/
def refReturns (r : RefMap) : List Mutation → List (Option Int)
  | [] => []
  | c :: cs => (refStep r c).2 :: refReturns (refStep r c).1 cs

/-- The encoding of an optional result as an `int`: absent is `INT_MAX`. -/
def encodeAbsent : Option Int → Int
  | none => INT_MAX
  | some v => v

/-- The reading of a returned `int` as an optional result. -/
def decodeAbsent (x : Int) : Option Int := if x = INT_MAX then none else some x

/-- The values stored by the `put` calls of a sequence. -/
def storedValues : List Mutation → List Int
  | [] => []
  | Mutation.put _ value :: cs => value :: storedValues cs
  | Mutation.del _ :: cs => storedValues cs

/-! ## Counting the calls that change `numOps` -/

/-- The call is a `put` of a key the map does not hold, with `malloc` succeeding. -/
def isNewKeyInsert (m : ts_hashmap_t) : Op → Bool
  | Op.put key _ malloc_ok => malloc_ok && (lookup m key).isNone
  | Op.get _ => false
  | Op.del _ => false

/-- The call is a `del` of a key the map holds. -/
def isSuccessfulDelete (m : ts_hashmap_t) : Op → Bool
  | Op.put _ _ _ => false
  | Op.get _ => false
  | Op.del key => (lookup m key).isSome

/-- The number of new-key inserts in a sequence of calls started in state `m`. -/
def newKeyInserts (m : ts_hashmap_t) : List Op → Nat
  | [] => 0
  | op :: ops => (if isNewKeyInsert m op then 1 else 0) + newKeyInserts (step m op).1 ops

/-- The number of successful deletes in a sequence of calls started in state `m`. -/
def successfulDeletes (m : ts_hashmap_t) : List Op → Nat
  | [] => 0
  | op :: ops => (if isSuccessfulDelete m op then 1 else 0) + successfulDeletes (step m op).1 ops

/-! ## Sample states and call sequences -/

/-- A map of capacity 4 whose bucket 1 holds the keys 1 and 5 (`5 % 4 == 1 % 4`). -/
def sampleMap : ts_hashmap_t :=
  { table := [[], [⟨1, 100⟩, ⟨5, 200⟩], [], []], numOps := 2, capacity := 4, size := 2 }

/-- A sequence of calls with a collision, an update, a failed `malloc`, a negative key, a
successful and a failed delete. -/
def sampleOps : List Op :=
  [Op.put 1 100 true, Op.put 5 200 true, Op.get 1, Op.put 1 7 true, Op.put 9 1 false,
   Op.put (-3) 9 true, Op.del 1, Op.del 1, Op.get 5]

/-- A sequence of mutations with a collision, an update, a negative key, a successful and a
failed delete. -/
def sampleMutations : List Mutation :=
  [Mutation.put 1 100, Mutation.put 5 200, Mutation.put 1 7, Mutation.put (-3) 9,
   Mutation.del 1, Mutation.del 1]

/-! ## Construction -/

/-- The function `initmap` of `ts_hashmap.c`.  `malloc_map` tells whether the first `malloc`
(the struct) succeeds; `malloc_table` is the result of the second one: `none` when it fails,
otherwise the content of the block of `capacity` bucket heads it returns.  `initmap` stores
nothing in the block, so the table is that content. -/
def initmap (capacity : Int) (malloc_map : Bool) (malloc_table : Option (List Chain)) :
    Option ts_hashmap_t :=
  if malloc_map then
    match malloc_table with
    | none => none
    | some block => some { table := block, numOps := 0, capacity := capacity, size := 0 }
  else none

/-- A block of four bucket heads as `malloc` may return it from recycled memory: the first
cell is not `NULL`. -/
def staleBlock : List Chain := [[⟨7, 7⟩], [], [], []]

/-! ## The mutex -/

/-- What a call does with the lock and the data it guards: `pthread_mutex_lock`,
`pthread_mutex_unlock`, and a read or write of the table, of an entry, of `size` or of
`numOps`. -/
inductive LockEvent where
  | acquire
  | release
  | touch
deriving DecidableEq

/-- The events of the loop of `get`: the key of the entry is read; on a match the mutex is
unlocked; then `entry->next` is read and the loop goes on. -/
def get_loop_events (key : Int) : Chain → List LockEvent
  | [] => []
  | entry :: next =>
    (LockEvent.touch :: (if entry.key = key then [LockEvent.release] else []))
      ++ LockEvent.touch :: get_loop_events key next

/-- The events of `get`: lock, read of `map->table[index]`, the loop, unlock. -/
def get_events (m : ts_hashmap_t) (key : Int) : List LockEvent :=
  LockEvent.acquire :: LockEvent.touch ::
    (get_loop_events key (bucket m (bucketIndex m.capacity key)) ++ [LockEvent.release])

/-- The events of the loop of `put` and whether it returned (`true`) or ran to the end of the
chain: the key is read; on a match the value is read and written, the mutex unlocked and the
function returns; otherwise `entry->next` is read. -/
def put_loop_events (key : Int) : Chain → List LockEvent × Bool
  | [] => ([], false)
  | entry :: next =>
    if entry.key = key then ([LockEvent.touch, LockEvent.touch, LockEvent.release], true)
    else
      (LockEvent.touch :: LockEvent.touch :: (put_loop_events key next).1,
        (put_loop_events key next).2)

/-- The events of `put`: lock, read of `map->table[index]`, the loop; when the loop ends
without a match, either `malloc` fails and the mutex is unlocked, or the entry is linked,
`size` and `numOps` are incremented and the mutex is unlocked. -/
def put_events (m : ts_hashmap_t) (key : Int) (malloc_ok : Bool) : List LockEvent :=
  let loop := put_loop_events key (bucket m (bucketIndex m.capacity key))
  LockEvent.acquire :: LockEvent.touch ::
    (loop.1 ++
      (if loop.2 then []
       else if malloc_ok then
        [LockEvent.touch, LockEvent.touch, LockEvent.touch, LockEvent.release]
       else [LockEvent.release]))

/-- The events of the loop of `del` and whether it returned: the key is read; on a match the
value is read, the entry unlinked, `size` and `numOps` decremented, the mutex unlocked and the
function returns; otherwise `entry->next` is read. -/
def del_loop_events (key : Int) : Chain → List LockEvent × Bool
  | [] => ([], false)
  | entry :: next =>
    if entry.key = key then
      ([LockEvent.touch, LockEvent.touch, LockEvent.touch, LockEvent.touch, LockEvent.touch,
        LockEvent.release], true)
    else
      (LockEvent.touch :: LockEvent.touch :: (del_loop_events key next).1,
        (del_loop_events key next).2)

/-- The events of `del`: lock, read of `map->table[index]`, the loop, and the unlock after the
loop when no entry matched. -/
def del_events (m : ts_hashmap_t) (key : Int) : List LockEvent :=
  let loop := del_loop_events key (bucket m (bucketIndex m.capacity key))
  LockEvent.acquire :: LockEvent.touch ::
    (loop.1 ++ (if loop.2 then [] else [LockEvent.release]))

/-- The lock is held over some accesses and then released, once, as the last event. -/
def heldThenReleased : List LockEvent → Bool
  | [] => false
  | LockEvent.release :: rest => rest.isEmpty
  | LockEvent.touch :: rest => heldThenReleased rest
  | LockEvent.acquire :: _ => false

/-- The locking discipline of one call: the lock is acquired once, as the first event, every
access happens while it is held, and it is released once, as the last event. -/
def lockDiscipline : List LockEvent → Bool
  | LockEvent.acquire :: rest => heldThenReleased rest
  | _ => false

/-- A map of capacity 1 that holds key 0 with the value `INT_MAX`. -/
def sentinelMap : ts_hashmap_t :=
  { table := [[⟨0, 2147483647⟩]], numOps := 1, capacity := 1, size := 1 }

/-! # Theorems -/

/-! ## The bucket index -/

theorem bucketIndex_eq (capacity key : Int) (hpos : 0 < capacity) (hmax : capacity ≤ INT_MAX) :
    bucketIndex capacity key = (key % 4294967296) % capacity := by
  unfold INT_MAX at hmax
  have hc : capacity % 4294967296 = capacity := Int.emod_eq_of_lt (by omega) (by omega)
  have h0 : 0 ≤ (key % 4294967296) % capacity := Int.emod_nonneg _ (by omega)
  have h1 : (key % 4294967296) % capacity < capacity := Int.emod_lt_of_pos _ hpos
  unfold bucketIndex toInt toUnsigned
  rw [hc]
  have h2 : (key % 4294967296 % capacity) % 4294967296 = key % 4294967296 % capacity :=
    Int.emod_eq_of_lt h0 (by omega)
  rw [h2, if_pos (by omega)]

theorem bucketIndex_nonneg (capacity key : Int) (hpos : 0 < capacity)
    (hmax : capacity ≤ INT_MAX) : 0 ≤ bucketIndex capacity key := by
  rw [bucketIndex_eq capacity key hpos hmax]
  exact Int.emod_nonneg _ (by omega)

theorem bucketIndex_lt (capacity key : Int) (hpos : 0 < capacity)
    (hmax : capacity ≤ INT_MAX) : bucketIndex capacity key < capacity := by
  rw [bucketIndex_eq capacity key hpos hmax]
  exact Int.emod_lt_of_pos _ hpos

theorem bucketIndex_toNat_lt (m : ts_hashmap_t) (key : Int) (hpos : 0 < m.capacity)
    (hal : tableAllocated m) : (bucketIndex m.capacity key).toNat < m.table.length := by
  have h0 := bucketIndex_nonneg m.capacity key hpos hal.1
  have h1 := bucketIndex_lt m.capacity key hpos hal.1
  rw [hal.2]
  omega

/-! ## Chains -/

theorem chainFind_eq_none (key : Int) (c : Chain) :
    chainFind key c = none ↔ key ∉ chainKeys c := by
  induction c with
  | nil => simp [chainFind, chainKeys]
  | cons e next ih =>
    by_cases h : e.key = key
    · simp [chainFind, chainKeys, h]
    · have h2 : ¬ key = e.key := fun hh => h hh.symm
      simp [chainFind, h, h2, ih, chainKeys]

theorem chainFind_append_of_not_mem (key : Int) (pre post : Chain)
    (hpre : key ∉ chainKeys pre) : chainFind key (pre ++ post) = chainFind key post := by
  induction pre with
  | nil => rfl
  | cons e next ih =>
    simp only [chainKeys, List.map_cons, List.mem_cons, not_or] at hpre
    have h : ¬ e.key = key := fun hh => hpre.1 hh.symm
    simp only [List.cons_append, chainFind, h, if_false]
    exact ih hpre.2

theorem chainFind_split (key v : Int) (c : Chain) (h : chainFind key c = some v) :
    ∃ pre post, c = pre ++ ⟨key, v⟩ :: post ∧ key ∉ chainKeys pre := by
  induction c with
  | nil => simp [chainFind] at h
  | cons e next ih =>
    by_cases hk : e.key = key
    · simp only [chainFind, hk, if_true, Option.some.injEq] at h
      refine ⟨[], next, ?_, by simp [chainKeys]⟩
      cases e
      simp_all
    · simp only [chainFind, hk, if_false] at h
      obtain ⟨pre, post, hc, hpre⟩ := ih h
      refine ⟨e :: pre, post, by simp [hc], ?_⟩
      simp only [chainKeys, List.map_cons, List.mem_cons, not_or]
      exact ⟨fun hh => hk hh.symm, hpre⟩

theorem put_loop_of_not_mem (key value : Int) (c : Chain) (h : key ∉ chainKeys c) :
    put_loop key value c = none := by
  induction c with
  | nil => rfl
  | cons e next ih =>
    simp only [chainKeys, List.map_cons, List.mem_cons, not_or] at h
    have hk : ¬ e.key = key := fun hh => h.1 hh.symm
    simp only [put_loop, hk, if_false, ih h.2]

theorem put_loop_split (key value old : Int) (pre post : Chain) (hpre : key ∉ chainKeys pre) :
    put_loop key value (pre ++ ⟨key, old⟩ :: post) = some (pre ++ ⟨key, value⟩ :: post, old) := by
  induction pre with
  | nil => simp [put_loop]
  | cons e next ih =>
    simp only [chainKeys, List.map_cons, List.mem_cons, not_or] at hpre
    have hk : ¬ e.key = key := fun hh => hpre.1 hh.symm
    have h2 := ih hpre.2
    simp [put_loop, hk, h2]

theorem del_loop_of_not_mem (key : Int) (c : Chain) (h : key ∉ chainKeys c) :
    del_loop key c = none := by
  induction c with
  | nil => rfl
  | cons e next ih =>
    simp only [chainKeys, List.map_cons, List.mem_cons, not_or] at h
    have hk : ¬ e.key = key := fun hh => h.1 hh.symm
    simp only [del_loop, hk, if_false, ih h.2]

theorem del_loop_split (key old : Int) (pre post : Chain) (hpre : key ∉ chainKeys pre) :
    del_loop key (pre ++ ⟨key, old⟩ :: post) = some (pre ++ post, old) := by
  induction pre with
  | nil => simp [del_loop]
  | cons e next ih =>
    simp only [chainKeys, List.map_cons, List.mem_cons, not_or] at hpre
    have hk : ¬ e.key = key := fun hh => hpre.1 hh.symm
    have h2 := ih hpre.2
    simp [del_loop, hk, h2]

theorem get_loop_eq (key : Int) (c : Chain) : get_loop key c = INT_MAX := by
  induction c with
  | nil => rfl
  | cons e next ih => simp [get_loop, ih]

/-! ## Table reads and writes -/

theorem getD_set (l : List Chain) (i j : Nat) (c : Chain) :
    (l.set i c).getD j [] = if i = j ∧ i < l.length then c else l.getD j [] := by
  simp only [List.getD_eq_getElem?_getD, List.getElem?_set]
  by_cases h : i = j
  · subst h
    by_cases h2 : i < l.length
    · simp [h2]
    · simp only [h2, and_false, if_false, if_true]
      rw [List.getElem?_eq_none (by omega)]
  · simp [h]

theorem getD_mem_or_nil (l : List Chain) (i : Nat) : l.getD i [] = [] ∨ l.getD i [] ∈ l := by
  induction l generalizing i with
  | nil => simp
  | cons a l ih =>
    cases i with
    | zero => simp
    | succ i =>
      rcases ih i with h | h
      · left; simpa using h
      · right; simp only [List.getD_cons_succ]; exact List.mem_cons_of_mem _ h

theorem getD_ne_nil_lt (l : List Chain) (i : Nat) (h : l.getD i [] ≠ []) : i < l.length := by
  by_contra hn
  apply h
  simp only [List.getD_eq_getElem?_getD]
  rw [List.getElem?_eq_none (by omega)]
  rfl

theorem sum_length_set (l : List Chain) (i : Nat) (c : Chain) (h : i < l.length) :
    ((l.set i c).map List.length).sum + (l.getD i []).length
      = (l.map List.length).sum + c.length := by
  induction l generalizing i with
  | nil => simp at h
  | cons a l ih =>
    cases i with
    | zero => simp; omega
    | succ i =>
      have h2 := ih i (by simpa using h)
      simp only [List.set_cons_succ, List.map_cons, List.sum_cons, List.getD_cons_succ]
      omega

theorem lookup_some_bounds (m : ts_hashmap_t) (k v : Int) (h : lookup m k = some v) :
    (bucketIndex m.capacity k).toNat < m.table.length := by
  apply getD_ne_nil_lt
  intro hn
  unfold lookup bucket at h
  rw [hn] at h
  simp [chainFind] at h

theorem mem_iff_getD (l : List Chain) (c : Chain) :
    c ∈ l ↔ ∃ j, j < l.length ∧ l.getD j [] = c := by
  constructor
  · intro h
    obtain ⟨j, hj, hc⟩ := List.getElem_of_mem h
    refine ⟨j, hj, ?_⟩
    simp only [List.getD_eq_getElem?_getD, List.getElem?_eq_getElem hj, Option.getD_some, hc]
  · rintro ⟨j, hj, hc⟩
    rw [← hc]
    simp only [List.getD_eq_getElem?_getD, List.getElem?_eq_getElem hj, Option.getD_some]
    exact List.getElem_mem hj

theorem bucket_keys_nodup (m : ts_hashmap_t) (index : Int) (h : noDupKeys m) :
    (chainKeys (bucket m index)).Nodup := by
  rcases getD_mem_or_nil m.table index.toNat with hn | hmem
  · unfold bucket; rw [hn]; exact List.nodup_nil
  · exact h _ hmem

theorem nodup_set (l : List Chain) (i : Nat) (c' : Chain)
    (h : ∀ c ∈ l, (chainKeys c).Nodup) (hc : (chainKeys c').Nodup) :
    ∀ c ∈ l.set i c', (chainKeys c).Nodup := by
  intro c hmem
  rcases List.mem_or_eq_of_mem_set hmem with h1 | h1
  · exact h c h1
  · rw [h1]; exact hc

theorem bucketsMatch_set (m m2 : ts_hashmap_t) (k : Int) (c' : Chain)
    (hcap : m2.capacity = m.capacity)
    (ht : m2.table = m.table.set (bucketIndex m.capacity k).toNat c')
    (h0 : 0 ≤ bucketIndex m.capacity k)
    (hkeys : ∀ e ∈ c', e.key = k ∨ e ∈ bucket m (bucketIndex m.capacity k))
    (h : bucketsMatch m) : bucketsMatch m2 := by
  intro i hi e he
  rw [ht] at hi he
  rw [hcap]
  rw [List.length_set] at hi
  rw [getD_set] at he
  by_cases hij : (bucketIndex m.capacity k).toNat = i
  · have hi2 : (bucketIndex m.capacity k).toNat < m.table.length := by omega
    rw [if_pos ⟨hij, hi2⟩] at he
    rcases hkeys e he with hk | hk
    · rw [hk]; omega
    · have := h i hi e (by unfold bucket at hk; rw [hij] at hk; exact hk)
      exact this
  · have hn : ¬ ((bucketIndex m.capacity k).toNat = i ∧
        (bucketIndex m.capacity k).toNat < m.table.length) := fun hh => hij hh.1
    rw [if_neg hn] at he
    exact h i hi e he

theorem chainKeys_append (a b : Chain) : chainKeys (a ++ b) = chainKeys a ++ chainKeys b := by
  simp [chainKeys]

theorem mem_chainKeys (k : Int) (c : Chain) : k ∈ chainKeys c ↔ ∃ e ∈ c, e.key = k := by
  simp [chainKeys]

/-! ## The two outcomes of `put` and of `del` -/

theorem put_cases (m : ts_hashmap_t) (k v : Int) (malloc_ok : Bool) :
    (lookup m k = none ∧
      put m k v malloc_ok =
        (if malloc_ok then
          { m with table := m.table.set (bucketIndex m.capacity k).toNat
                      (bucket m (bucketIndex m.capacity k) ++ [⟨k, v⟩]),
                    size := m.size + 1, numOps := m.numOps + 1 }
         else m, INT_MAX)) ∨
    (∃ old pre post, lookup m k = some old ∧
      bucket m (bucketIndex m.capacity k) = pre ++ ⟨k, old⟩ :: post ∧
      k ∉ chainKeys pre ∧
      (bucketIndex m.capacity k).toNat < m.table.length ∧
      put m k v malloc_ok =
        ({ m with table := m.table.set (bucketIndex m.capacity k).toNat
                    (pre ++ ⟨k, v⟩ :: post) }, old)) := by
  cases h : lookup m k with
  | none =>
    left
    have hn : put_loop k v (bucket m (bucketIndex m.capacity k)) = none :=
      put_loop_of_not_mem k v _ ((chainFind_eq_none k _).1 h)
    refine ⟨rfl, ?_⟩
    cases malloc_ok <;> simp [put, hn, setBucket]
  | some old =>
    right
    obtain ⟨pre, post, hc, hpre⟩ := chainFind_split k old _ h
    refine ⟨old, pre, post, rfl, hc, hpre, lookup_some_bounds m k old h, ?_⟩
    simp only [put, hc, put_loop_split k v old pre post hpre, setBucket]

theorem del_cases (m : ts_hashmap_t) (k : Int) :
    (lookup m k = none ∧ del m k = (m, INT_MAX)) ∨
    (∃ old pre post, lookup m k = some old ∧
      bucket m (bucketIndex m.capacity k) = pre ++ ⟨k, old⟩ :: post ∧
      k ∉ chainKeys pre ∧
      (bucketIndex m.capacity k).toNat < m.table.length ∧
      del m k =
        ({ m with table := m.table.set (bucketIndex m.capacity k).toNat (pre ++ post),
                  size := m.size - 1, numOps := m.numOps - 1 }, old)) := by
  cases h : lookup m k with
  | none =>
    left
    have hn : del_loop k (bucket m (bucketIndex m.capacity k)) = none :=
      del_loop_of_not_mem k _ ((chainFind_eq_none k _).1 h)
    refine ⟨rfl, ?_⟩
    simp only [del, hn]
  | some old =>
    right
    obtain ⟨pre, post, hc, hpre⟩ := chainFind_split k old _ h
    refine ⟨old, pre, post, rfl, hc, hpre, lookup_some_bounds m k old h, ?_⟩
    simp only [del, hc, del_loop_split k old pre post hpre, setBucket]

/-! ## Preservation of the invariants -/

theorem step_capacity (m : ts_hashmap_t) (op : Op) : (step m op).1.capacity = m.capacity := by
  cases op with
  | put k v ok =>
    rcases put_cases m k v ok with ⟨_, hp⟩ | ⟨old, pre, post, _, _, _, _, hp⟩
    · simp only [step, hp]; cases ok <;> rfl
    · simp only [step, hp]
  | get k => rfl
  | del k =>
    rcases del_cases m k with ⟨_, hp⟩ | ⟨old, pre, post, _, _, _, _, hp⟩
    · simp only [step, hp]
    · simp only [step, hp]

theorem step_length (m : ts_hashmap_t) (op : Op) :
    (step m op).1.table.length = m.table.length := by
  cases op with
  | put k v ok =>
    rcases put_cases m k v ok with ⟨_, hp⟩ | ⟨old, pre, post, _, _, _, _, hp⟩
    · simp only [step, hp]; cases ok <;> simp
    · simp only [step, hp, List.length_set]
  | get k => rfl
  | del k =>
    rcases del_cases m k with ⟨_, hp⟩ | ⟨old, pre, post, _, _, _, _, hp⟩
    · simp only [step, hp]
    · simp only [step, hp, List.length_set]

theorem step_tableAllocated (m : ts_hashmap_t) (op : Op) (h : tableAllocated m) :
    tableAllocated (step m op).1 := by
  unfold tableAllocated
  rw [step_capacity, step_length]
  exact h

theorem noDupKeys_step (m : ts_hashmap_t) (op : Op) (h : noDupKeys m) :
    noDupKeys (step m op).1 := by
  have hb := fun index => bucket_keys_nodup m index h
  cases op with
  | put k v ok =>
    rcases put_cases m k v ok with ⟨hl, hp⟩ | ⟨old, pre, post, _, hc, _, _, hp⟩
    · simp only [step, hp]
      cases ok
      · exact h
      · apply nodup_set _ _ _ h
        rw [chainKeys_append]
        have hk := (chainFind_eq_none k _).1 hl
        have h1 := hb (bucketIndex m.capacity k)
        simp only [chainKeys, List.map_cons, List.map_nil] at hk h1 ⊢
        exact List.Nodup.append h1 (List.nodup_singleton k)
          (by simpa [List.disjoint_singleton] using hk)
    · simp only [step, hp]
      apply nodup_set _ _ _ h
      have h1 := hb (bucketIndex m.capacity k)
      rw [hc] at h1
      simpa [chainKeys] using h1
  | get k => exact h
  | del k =>
    rcases del_cases m k with ⟨_, hp⟩ | ⟨old, pre, post, _, hc, _, _, hp⟩
    · simp only [step, hp]; exact h
    · simp only [step, hp]
      apply nodup_set _ _ _ h
      have h1 := hb (bucketIndex m.capacity k)
      rw [hc] at h1
      refine List.Nodup.sublist ?_ h1
      simp only [chainKeys, List.map_append, List.map_cons]
      exact List.Sublist.append (List.Sublist.refl _) (List.sublist_cons_self _ _)

theorem bucketsMatch_step (m : ts_hashmap_t) (op : Op) (hcap : 0 < m.capacity)
    (hmax : m.capacity ≤ INT_MAX) (h : bucketsMatch m) : bucketsMatch (step m op).1 := by
  have h0 := fun k => bucketIndex_nonneg m.capacity k hcap hmax
  cases op with
  | put k v ok =>
    rcases put_cases m k v ok with ⟨hl, hp⟩ | ⟨old, pre, post, _, hc, _, _, hp⟩
    · simp only [step, hp]
      cases ok
      · exact h
      · refine bucketsMatch_set m _ k _ rfl rfl (h0 k) ?_ h
        intro e he
        rcases List.mem_append.1 he with h1 | h1
        · exact Or.inr h1
        · left; simp only [List.mem_singleton] at h1; rw [h1]
    · simp only [step, hp]
      refine bucketsMatch_set m _ k _ rfl rfl (h0 k) ?_ h
      intro e he
      rw [hc]
      simp only [List.mem_append, List.mem_cons] at he ⊢
      rcases he with h1 | h1 | h1
      · exact Or.inr (Or.inl h1)
      · left; rw [h1]
      · exact Or.inr (Or.inr (Or.inr h1))
  | get k => exact h
  | del k =>
    rcases del_cases m k with ⟨_, hp⟩ | ⟨old, pre, post, _, hc, _, _, hp⟩
    · simp only [step, hp]; exact h
    · simp only [step, hp]
      refine bucketsMatch_set m _ k _ rfl rfl (h0 k) ?_ h
      intro e he
      rw [hc]
      simp only [List.mem_append, List.mem_cons] at he ⊢
      rcases he with h1 | h1
      · exact Or.inr (Or.inl h1)
      · exact Or.inr (Or.inr (Or.inr h1))

theorem size_step (m : ts_hashmap_t) (op : Op) (hcap : 0 < m.capacity)
    (hal : tableAllocated m) (h : m.size = entryCount m) :
    (step m op).1.size = entryCount (step m op).1 := by
  have hb := fun k => bucketIndex_toNat_lt m k hcap hal
  unfold entryCount at h ⊢
  cases op with
  | put k v ok =>
    rcases put_cases m k v ok with ⟨hl, hp⟩ | ⟨old, pre, post, _, hc, _, _, hp⟩
    · simp only [step, hp]
      cases ok
      · exact h
      · have h1 := sum_length_set m.table _
          (bucket m (bucketIndex m.capacity k) ++ [⟨k, v⟩]) (hb k)
        simp only [bucket, List.length_append, List.length_singleton] at h1
        simp only [if_true, bucket]
        omega
    · have h1 := sum_length_set m.table _ (pre ++ ⟨k, v⟩ :: post) (hb k)
      unfold bucket at hc
      rw [hc] at h1
      simp only [List.length_append, List.length_cons] at h1
      simp only [step, hp]
      omega
  | get k => exact h
  | del k =>
    rcases del_cases m k with ⟨_, hp⟩ | ⟨old, pre, post, _, hc, _, _, hp⟩
    · simp only [step, hp]; exact h
    · have h1 := sum_length_set m.table _ (pre ++ post) (hb k)
      unfold bucket at hc
      rw [hc] at h1
      simp only [List.length_append, List.length_cons] at h1
      simp only [step, hp]
      omega

theorem allKeys_nodup (m : ts_hashmap_t) (h : wellFormed m) :
    ((allEntries m).map ts_entry_t.key).Nodup := by
  unfold allEntries
  rw [List.map_flatten, List.nodup_flatten]
  constructor
  · intro l hl
    obtain ⟨c, hc, rfl⟩ := List.mem_map.1 hl
    exact h.2 c hc
  · rw [List.pairwise_map, List.pairwise_iff_getElem]
    intro i j hi hj hij x hxi hxj
    obtain ⟨e1, he1, hk1⟩ := List.mem_map.1 hxi
    obtain ⟨e2, he2, hk2⟩ := List.mem_map.1 hxj
    have g1 := h.1 i hi e1 (by
      simp only [List.getD_eq_getElem?_getD, List.getElem?_eq_getElem hi, Option.getD_some]
      exact he1)
    have g2 := h.1 j hj e2 (by
      simp only [List.getD_eq_getElem?_getD, List.getElem?_eq_getElem hj, Option.getD_some]
      exact he2)
    rw [hk1] at g1
    rw [hk2] at g2
    omega

theorem entryCount_eq_distinctKeys (m : ts_hashmap_t) (h : wellFormed m) :
    entryCount m = distinctKeys m := by
  unfold distinctKeys
  rw [(allKeys_nodup m h).dedup, List.length_map]
  unfold allEntries entryCount
  rw [List.length_flatten]

/-! ## Reachable states -/

theorem freshMap_tableAllocated (capacity : Int) (hmax : capacity ≤ INT_MAX) :
    tableAllocated (freshMap capacity) := by
  unfold tableAllocated freshMap
  exact ⟨hmax, by simp⟩

theorem freshMap_bucketsMatch (capacity : Int) : bucketsMatch (freshMap capacity) := by
  intro i hi e he
  simp only [freshMap, List.length_replicate] at hi
  simp only [freshMap, List.getD_eq_getElem?_getD] at he
  rw [List.getElem?_eq_getElem (by simpa using hi)] at he
  simp at he

theorem freshMap_noDupKeys (capacity : Int) : noDupKeys (freshMap capacity) := by
  intro c hc
  simp only [freshMap] at hc
  rw [List.eq_of_mem_replicate hc]
  exact List.nodup_nil

theorem freshMap_size (capacity : Int) :
    (freshMap capacity).size = entryCount (freshMap capacity) := by
  simp [freshMap, entryCount]

/-- The properties that hold in every state of a run that starts from a fresh map. -/
theorem run_invariant (m : ts_hashmap_t) (ops : List Op) (hcap : 0 < m.capacity)
    (hal : tableAllocated m) (hwf : wellFormed m) (hsz : m.size = entryCount m) :
    0 < (run m ops).capacity ∧ tableAllocated (run m ops) ∧ wellFormed (run m ops) ∧
      (run m ops).size = entryCount (run m ops) := by
  induction ops generalizing m with
  | nil => exact ⟨hcap, hal, hwf, hsz⟩
  | cons op ops ih =>
    simp only [run]
    apply ih
    · rw [step_capacity]; exact hcap
    · exact step_tableAllocated m op hal
    · exact ⟨bucketsMatch_step m op hcap hal.1 hwf.1, noDupKeys_step m op hwf.2⟩
    · exact size_step m op hcap hal hsz

theorem numOps_step (m : ts_hashmap_t) (op : Op) :
    (step m op).1.numOps
      = m.numOps + (if isNewKeyInsert m op then 1 else 0)
          - (if isSuccessfulDelete m op then 1 else 0) := by
  cases op with
  | put k v ok =>
    rcases put_cases m k v ok with ⟨hl, hp⟩ | ⟨old, pre, post, hl, _, _, _, hp⟩
    · cases ok <;> simp [step, hp, isNewKeyInsert, isSuccessfulDelete, hl]
    · simp [step, hp, isNewKeyInsert, isSuccessfulDelete, hl]
  | get k => simp [step, isNewKeyInsert, isSuccessfulDelete]
  | del k =>
    rcases del_cases m k with ⟨hl, hp⟩ | ⟨old, pre, post, hl, _, _, _, hp⟩
    · simp [step, hp, isNewKeyInsert, isSuccessfulDelete, hl]
    · simp only [step, hp, isNewKeyInsert, isSuccessfulDelete, hl, Option.isSome_some]
      simp

theorem numOps_run (m : ts_hashmap_t) (ops : List Op) :
    (run m ops).numOps = m.numOps + (newKeyInserts m ops : Int) - (successfulDeletes m ops : Int) := by
  induction ops generalizing m with
  | nil => simp [run, newKeyInserts, successfulDeletes]
  | cons op ops ih =>
    simp only [run, newKeyInserts, successfulDeletes]
    rw [ih, numOps_step]
    by_cases h1 : isNewKeyInsert m op = true <;> by_cases h2 : isSuccessfulDelete m op = true <;>
      simp [h1, h2] <;> omega

/-! ## The map as a reference mapping -/

theorem chainFind_append_singleton_ne (k k2 v : Int) (c : Chain) (hne : k2 ≠ k) :
    chainFind k2 (c ++ [⟨k, v⟩]) = chainFind k2 c := by
  induction c with
  | nil => simp [chainFind, hne.symm]
  | cons e next ih =>
    by_cases h : e.key = k2
    · simp [chainFind, h]
    · simp [chainFind, h, ih]

theorem chainFind_update_ne (k k2 v old : Int) (pre post : Chain) (hne : k2 ≠ k) :
    chainFind k2 (pre ++ ⟨k, v⟩ :: post) = chainFind k2 (pre ++ ⟨k, old⟩ :: post) := by
  induction pre with
  | nil => simp [chainFind, hne.symm]
  | cons e next ih =>
    by_cases h : e.key = k2
    · simp [chainFind, h]
    · simp [chainFind, h, ih]

theorem chainFind_remove_ne (k k2 old : Int) (pre post : Chain) (hne : k2 ≠ k) :
    chainFind k2 (pre ++ post) = chainFind k2 (pre ++ ⟨k, old⟩ :: post) := by
  induction pre with
  | nil => simp [chainFind, hne.symm]
  | cons e next ih =>
    by_cases h : e.key = k2
    · simp [chainFind, h]
    · simp [chainFind, h, ih]

theorem chainFind_self (k v : Int) (pre post : Chain) (hpre : k ∉ chainKeys pre) :
    chainFind k (pre ++ ⟨k, v⟩ :: post) = some v := by
  rw [chainFind_append_of_not_mem k pre _ hpre]
  simp [chainFind]

/-- Reading key `k2` after bucket `index(k)` was overwritten with a chain that agrees with the
old one on every key other than `k`. -/
theorem lookup_set_ne (m m2 : ts_hashmap_t) (k k2 : Int) (c' : Chain)
    (hcap : m2.capacity = m.capacity)
    (ht : m2.table = m.table.set (bucketIndex m.capacity k).toNat c')
    (hagree : chainFind k2 c' = chainFind k2 (bucket m (bucketIndex m.capacity k)))
    (h0 : 0 ≤ bucketIndex m.capacity k) (h02 : 0 ≤ bucketIndex m.capacity k2) :
    lookup m2 k2 = lookup m k2 := by
  unfold lookup bucket
  rw [hcap, ht, getD_set]
  by_cases hi : (bucketIndex m.capacity k).toNat = (bucketIndex m.capacity k2).toNat
  · have hidx : bucketIndex m.capacity k = bucketIndex m.capacity k2 := by omega
    by_cases hb : (bucketIndex m.capacity k).toNat < m.table.length
    · rw [if_pos ⟨hi, hb⟩, hagree, hidx]
      rfl
    · have hn : ¬ ((bucketIndex m.capacity k).toNat = (bucketIndex m.capacity k2).toNat ∧
          (bucketIndex m.capacity k).toNat < m.table.length) := fun hh => hb hh.2
      rw [if_neg hn]
  · have hn : ¬ ((bucketIndex m.capacity k).toNat = (bucketIndex m.capacity k2).toNat ∧
        (bucketIndex m.capacity k).toNat < m.table.length) := fun hh => hi hh.1
    rw [if_neg hn]

theorem lookup_put (m : ts_hashmap_t) (k v k2 : Int) (hcap : 0 < m.capacity)
    (hal : tableAllocated m) :
    lookup (put m k v true).1 k2 = if k2 = k then some v else lookup m k2 := by
  have hb := bucketIndex_toNat_lt m k hcap hal
  have h0 := fun x => bucketIndex_nonneg m.capacity x hcap hal.1
  by_cases hk : k2 = k
  · subst hk
    rw [if_pos rfl]
    rcases put_cases m k2 v true with ⟨hl, hp⟩ | ⟨old, pre, post, hl, hc, hpre, _, hp⟩
    · rw [hp]
      simp only [if_true, lookup, bucket, getD_set, hb, and_self]
      have hk := (chainFind_eq_none k2 _).1 hl
      unfold bucket at hk
      rw [chainFind_append_of_not_mem k2 _ _ hk]
      simp [chainFind]
    · rw [hp]
      simp only [lookup, bucket, getD_set, hb, and_self, if_true]
      exact chainFind_self k2 v pre post hpre
  · rw [if_neg hk]
    rcases put_cases m k v true with ⟨hl, hp⟩ | ⟨old, pre, post, hl, hc, hpre, _, hp⟩
    · rw [hp]
      exact lookup_set_ne m _ k k2 _ rfl rfl (chainFind_append_singleton_ne k k2 v _ hk)
        (h0 k) (h0 k2)
    · rw [hp]
      refine lookup_set_ne m _ k k2 _ rfl rfl ?_ (h0 k) (h0 k2)
      rw [hc]
      exact chainFind_update_ne k k2 v old pre post hk

theorem lookup_del (m : ts_hashmap_t) (k k2 : Int) (hcap : 0 < m.capacity)
    (hal : tableAllocated m) (hnd : noDupKeys m) :
    lookup (del m k).1 k2 = if k2 = k then none else lookup m k2 := by
  have hb := bucketIndex_toNat_lt m k hcap hal
  have h0 := fun x => bucketIndex_nonneg m.capacity x hcap hal.1
  rcases del_cases m k with ⟨hl, hp⟩ | ⟨old, pre, post, hl, hc, hpre, _, hp⟩
  · rw [hp]
    by_cases hk : k2 = k
    · rw [if_pos hk, hk]; exact hl
    · rw [if_neg hk]
  · rw [hp]
    by_cases hk : k2 = k
    · subst hk
      rw [if_pos rfl]
      simp only [lookup, bucket, getD_set, hb, and_self, if_true]
      have hnd2 := bucket_keys_nodup m (bucketIndex m.capacity k2) hnd
      rw [hc, chainKeys_append] at hnd2
      have hpost : k2 ∉ chainKeys post := by
        have h2 := (List.nodup_append.1 hnd2).2.1
        simp only [chainKeys, List.map_cons, List.nodup_cons] at h2
        exact h2.1
      rw [chainFind_eq_none, chainKeys_append, List.mem_append]
      exact fun hh => hh.elim hpre hpost
    · rw [if_neg hk]
      refine lookup_set_ne m _ k k2 _ rfl rfl ?_ (h0 k) (h0 k2)
      rw [hc]
      exact chainFind_remove_ne k k2 old pre post hk

theorem put_returns (m : ts_hashmap_t) (k v : Int) (malloc_ok : Bool) :
    (put m k v malloc_ok).2 = encodeAbsent (lookup m k) := by
  rcases put_cases m k v malloc_ok with ⟨hl, hp⟩ | ⟨old, pre, post, hl, _, _, _, hp⟩
  · rw [hp, hl]; rfl
  · rw [hp, hl]; rfl

theorem del_returns (m : ts_hashmap_t) (k : Int) :
    (del m k).2 = encodeAbsent (lookup m k) := by
  rcases del_cases m k with ⟨hl, hp⟩ | ⟨old, pre, post, hl, _, _, _, hp⟩
  · rw [hp, hl]; rfl
  · rw [hp, hl]; rfl

theorem returns_refine (m : ts_hashmap_t) (r : RefMap) (muts : List Mutation)
    (hcap : 0 < m.capacity) (hal : tableAllocated m) (hnd : noDupKeys m)
    (hrel : ∀ k, lookup m k = r k) :
    returns m (muts.map Mutation.toOp) = (refReturns r muts).map encodeAbsent := by
  induction muts generalizing m r with
  | nil => rfl
  | cons c cs ih =>
    cases c with
    | put k v =>
      simp only [List.map_cons, Mutation.toOp, returns, refReturns, refStep, step]
      rw [put_returns, hrel k]
      congr 1
      apply ih
      · have := step_capacity m (Op.put k v true)
        simp only [step] at this
        rw [this]; exact hcap
      · exact step_tableAllocated m (Op.put k v true) hal
      · exact noDupKeys_step m (Op.put k v true) hnd
      · intro k2
        rw [lookup_put m k v k2 hcap hal, Function.update_apply, hrel k2]
    | del k =>
      simp only [List.map_cons, Mutation.toOp, returns, refReturns, refStep, step]
      rw [del_returns, hrel k]
      congr 1
      apply ih
      · have := step_capacity m (Op.del k)
        simp only [step] at this
        rw [this]; exact hcap
      · exact step_tableAllocated m (Op.del k) hal
      · exact noDupKeys_step m (Op.del k) hnd
      · intro k2
        rw [lookup_del m k k2 hcap hal hnd, Function.update_apply, hrel k2]

theorem refReturns_values (r : RefMap) (muts : List Mutation)
    (hr : ∀ k v, r k = some v → v ≠ INT_MAX)
    (hv : ∀ v ∈ storedValues muts, v ≠ INT_MAX) :
    ∀ x ∈ refReturns r muts, decodeAbsent (encodeAbsent x) = x := by
  induction muts generalizing r with
  | nil => intro x hx; simp [refReturns] at hx
  | cons c cs ih =>
    have hdec : ∀ k, decodeAbsent (encodeAbsent (r k)) = r k := by
      intro k
      cases hk : r k with
      | none => simp [encodeAbsent, decodeAbsent]
      | some v => simp [encodeAbsent, decodeAbsent, hr k v hk]
    cases c with
    | put k v =>
      intro x hx
      simp only [refReturns, refStep, List.mem_cons] at hx
      rcases hx with rfl | hx
      · exact hdec k
      · refine ih _ ?_ ?_ x hx
        · intro k2 v2 h2
          rw [Function.update_apply] at h2
          by_cases hk : k2 = k
          · rw [if_pos hk] at h2
            have : v = v2 := by simpa using h2
            rw [← this]
            exact hv v (by simp [storedValues])
          · rw [if_neg hk] at h2
            exact hr k2 v2 h2
        · intro v2 h2
          exact hv v2 (by simp [storedValues, h2])
    | del k =>
      intro x hx
      simp only [refReturns, refStep, List.mem_cons] at hx
      rcases hx with rfl | hx
      · exact hdec k
      · refine ih _ ?_ ?_ x hx
        · intro k2 v2 h2
          rw [Function.update_apply] at h2
          by_cases hk : k2 = k
          · rw [if_pos hk] at h2
            simp at h2
          · rw [if_neg hk] at h2
            exact hr k2 v2 h2
        · intro v2 h2
          exact hv v2 (by simpa [storedValues] using h2)

/-! ## Single calls -/

/-- C1: on the fresh map of capacity 4, after `put(map, 1, 100)` the entry `(1, 100)` is
stored in bucket 1, yet `get(map, 1)` returns `INT_MAX` and not `100`: the loop of `get`
has no `return` on a key match. -/
theorem get_after_put_misses_value :
    (put (freshMap 4) 1 100 true).1.table = [[], [⟨1, 100⟩], [], []] ∧
    lookup (put (freshMap 4) 1 100 true).1 1 = some 100 ∧
    get (put (freshMap 4) 1 100 true).1 1 = INT_MAX ∧
    get (put (freshMap 4) 1 100 true).1 1 ≠ 100 := by
  decide

/-- C3: when the map holds key `k` with value `v1`, the chain of `k`'s bucket is
`pre ++ (k, v1) :: post` with `k` not in `pre`, and `put(map, k, v2)` returns `v1`, writes
`pre ++ (k, v2) :: post` to that bucket (same position in the chain) and changes nothing
else: `size`, `numOps`, `capacity` and the other buckets are as before. -/
theorem put_existing_key (m : ts_hashmap_t) (k v1 v2 : Int) (malloc_ok : Bool)
    (h : lookup m k = some v1) :
    ∃ pre post, bucket m (bucketIndex m.capacity k) = pre ++ ⟨k, v1⟩ :: post ∧
      k ∉ chainKeys pre ∧
      put m k v2 malloc_ok =
        ({ m with table := m.table.set (bucketIndex m.capacity k).toNat
                    (pre ++ ⟨k, v2⟩ :: post) }, v1) ∧
      bucket (put m k v2 malloc_ok).1 (bucketIndex m.capacity k) = pre ++ ⟨k, v2⟩ :: post ∧
      (put m k v2 malloc_ok).1.size = m.size ∧
      (put m k v2 malloc_ok).1.numOps = m.numOps := by
  have hb := lookup_some_bounds m k v1 h
  obtain ⟨pre, post, hc, hpre⟩ := chainFind_split k v1 _ h
  have hput : put m k v2 malloc_ok =
      ({ m with table := m.table.set (bucketIndex m.capacity k).toNat
                  (pre ++ ⟨k, v2⟩ :: post) }, v1) := by
    simp only [put, hc, put_loop_split k v2 v1 pre post hpre, setBucket]
  refine ⟨pre, post, hc, hpre, hput, ?_, ?_, ?_⟩
  · rw [hput]
    simp only [bucket, getD_set, hb, and_self, if_true]
  · rw [hput]
  · rw [hput]

/-- C4: when the table has `capacity > 0` buckets and the map does not hold key `k`,
`put(map, k, v)` with a successful `malloc` returns `INT_MAX`, makes the chain of bucket
`index(k)` the old chain followed by `(k, v)`, leaves every other bucket as it was, and
increases `size` and `numOps` by exactly 1. -/
theorem put_new_key (m : ts_hashmap_t) (k v : Int) (hcap : 0 < m.capacity)
    (hal : tableAllocated m) (h : lookup m k = none) :
    (put m k v true).2 = INT_MAX ∧
    bucket (put m k v true).1 (bucketIndex m.capacity k)
      = bucket m (bucketIndex m.capacity k) ++ [⟨k, v⟩] ∧
    (∀ i, i ≠ (bucketIndex m.capacity k).toNat →
      (put m k v true).1.table.getD i [] = m.table.getD i []) ∧
    (put m k v true).1.table.length = m.table.length ∧
    (put m k v true).1.capacity = m.capacity ∧
    (put m k v true).1.size = m.size + 1 ∧
    (put m k v true).1.numOps = m.numOps + 1 := by
  have hb := bucketIndex_toNat_lt m k hcap hal
  have hn : put_loop k v (bucket m (bucketIndex m.capacity k)) = none :=
    put_loop_of_not_mem k v _ ((chainFind_eq_none k _).1 h)
  have hput : put m k v true =
      ({ m with table := m.table.set (bucketIndex m.capacity k).toNat
                  (bucket m (bucketIndex m.capacity k) ++ [⟨k, v⟩]),
                size := m.size + 1, numOps := m.numOps + 1 }, INT_MAX) := by
    simp only [put, hn, setBucket, if_true]
  rw [hput]
  refine ⟨rfl, ?_, ?_, ?_, rfl, rfl, rfl⟩
  · simp only [bucket, getD_set, hb, and_self, if_true]
  · intro i hi
    have hi2 : ¬ ((bucketIndex m.capacity k).toNat = i ∧
        (bucketIndex m.capacity k).toNat < m.table.length) := fun hh => hi hh.1.symm
    simp only [getD_set, hi2, if_false]
  · simp

/-- C6: when the table has `capacity > 0` buckets and the map does not hold key `k`
(well-formed or not), the index read by `del` is inside the table, `del(map, k)` returns
`INT_MAX` and the state after the call is the state before it: every chain, `size` and
`numOps`. -/
theorem del_missing_key (m : ts_hashmap_t) (k : Int) (hcap : 0 < m.capacity)
    (hal : tableAllocated m) (h : lookup m k = none) :
    (bucketIndex m.capacity k).toNat < m.table.length ∧ del m k = (m, INT_MAX) := by
  refine ⟨bucketIndex_toNat_lt m k hcap hal, ?_⟩
  have hn : del_loop k (bucket m (bucketIndex m.capacity k)) = none :=
    del_loop_of_not_mem k _ ((chainFind_eq_none k _).1 h)
  simp only [del, hn]

/-- C5: when a well-formed map holds key `k` with value `v`, the chain of `k`'s bucket is
`pre ++ (k, v) :: post`, and `del(map, k)` returns `v`, leaves `pre ++ post` in that bucket,
after which no chain of the table contains key `k`; `size` and `numOps` decrease by exactly 1
and a following `get(map, k)` returns `INT_MAX`. -/
theorem del_present_key (m : ts_hashmap_t) (k v : Int) (hwf : wellFormed m)
    (h : lookup m k = some v) :
    (del m k).2 = v ∧
    (∃ pre post, bucket m (bucketIndex m.capacity k) = pre ++ ⟨k, v⟩ :: post ∧
      (del m k).1.table = m.table.set (bucketIndex m.capacity k).toNat (pre ++ post)) ∧
    (∀ c ∈ (del m k).1.table, k ∉ chainKeys c) ∧
    lookup (del m k).1 k = none ∧
    (del m k).1.size = m.size - 1 ∧
    (del m k).1.numOps = m.numOps - 1 ∧
    get (del m k).1 k = INT_MAX := by
  have hb := lookup_some_bounds m k v h
  obtain ⟨pre, post, hc, hpre⟩ := chainFind_split k v _ h
  have hdel : del m k =
      ({ m with table := m.table.set (bucketIndex m.capacity k).toNat (pre ++ post),
                size := m.size - 1, numOps := m.numOps - 1 }, v) := by
    simp only [del, hc, del_loop_split k v pre post hpre, setBucket]
  have hnd := bucket_keys_nodup m (bucketIndex m.capacity k) hwf.2
  rw [hc, chainKeys_append] at hnd
  have hpost : k ∉ chainKeys post := by
    have h2 := (List.nodup_append.1 hnd).2.1
    simp only [chainKeys, List.map_cons, List.nodup_cons] at h2
    exact h2.1
  have hnone : k ∉ chainKeys (pre ++ post) := by
    rw [chainKeys_append, List.mem_append]
    exact fun hh => hh.elim hpre hpost
  have hall : ∀ c ∈ m.table.set (bucketIndex m.capacity k).toNat (pre ++ post),
      k ∉ chainKeys c := by
    intro c hmem
    obtain ⟨j, hj, hcj⟩ := (mem_iff_getD _ c).1 hmem
    rw [List.length_set] at hj
    rw [getD_set] at hcj
    by_cases hij : (bucketIndex m.capacity k).toNat = j
    · rw [if_pos ⟨hij, hb⟩] at hcj
      rw [← hcj]; exact hnone
    · have hn : ¬ ((bucketIndex m.capacity k).toNat = j ∧
          (bucketIndex m.capacity k).toNat < m.table.length) := fun hh => hij hh.1
      rw [if_neg hn] at hcj
      intro hk
      obtain ⟨e, he, hek⟩ := (mem_chainKeys k c).1 hk
      have := hwf.1 j hj e (by rw [hcj]; exact he)
      rw [hek] at this
      apply hij
      rw [this]; rfl
  rw [hdel]
  refine ⟨rfl, ⟨pre, post, hc, rfl⟩, hall, ?_, rfl, rfl, ?_⟩
  · simp only [lookup, bucket, getD_set, hb, and_self, if_true]
    exact (chainFind_eq_none k _).2 hnone
  · simp only [get, get_loop_eq]

/-! ## Invariants of the reachable states -/

/-- C7: in every state reached from a fresh map (all buckets empty, `0 < capacity`, a C `int`)
by a finite sequence of `put`, `get` and `del` calls, whatever the outcome of each `malloc`,
`size` equals the total number of entries in all chains, and that number equals the number of
distinct keys in the table. -/
theorem size_counts_entries (capacity : Int) (ops : List Op) (hcap : 0 < capacity)
    (hmax : capacity ≤ INT_MAX) :
    (run (freshMap capacity) ops).size = entryCount (run (freshMap capacity) ops) ∧
    entryCount (run (freshMap capacity) ops) = distinctKeys (run (freshMap capacity) ops) := by
  have h := run_invariant (freshMap capacity) ops hcap (freshMap_tableAllocated capacity hmax)
    ⟨freshMap_bucketsMatch capacity, freshMap_noDupKeys capacity⟩ (freshMap_size capacity)
  exact ⟨h.2.2.2, entryCount_eq_distinctKeys _ h.2.2.1⟩

/-- C8: no chain of the fresh empty map repeats a key; if no chain of `m` repeats a key, then
none does after any single `put`, `get` or `del` call on `m`; and in every state reached from
a fresh map with `0 < capacity` every key occurs at most once in the whole table. -/
theorem noDupKeys_invariant (capacity : Int) (ops : List Op) (m : ts_hashmap_t) (op : Op)
    (hcap : 0 < capacity) (hmax : capacity ≤ INT_MAX) (h : noDupKeys m) :
    noDupKeys (freshMap capacity) ∧
    noDupKeys (step m op).1 ∧
    noDupKeys (run (freshMap capacity) ops) ∧
    ∀ k, ((allEntries (run (freshMap capacity) ops)).map ts_entry_t.key).count k ≤ 1 := by
  have hr := run_invariant (freshMap capacity) ops hcap (freshMap_tableAllocated capacity hmax)
    ⟨freshMap_bucketsMatch capacity, freshMap_noDupKeys capacity⟩ (freshMap_size capacity)
  refine ⟨freshMap_noDupKeys capacity, noDupKeys_step m op h, hr.2.2.1.2, ?_⟩
  exact List.nodup_iff_count_le_one.1 (allKeys_nodup _ hr.2.2.1)

/-- C9: every entry of the fresh empty map lies in the bucket of its key (there is none); and
if every entry of `m` lies in the bucket `(unsigned) key % capacity` of its key, with
`capacity` a positive `int`, the same holds after any single call on `m`, whatever the key of
the call, negative keys included. -/
theorem bucketsMatch_invariant (capacity : Int) (m : ts_hashmap_t) (op : Op)
    (hcap : 0 < m.capacity) (hmax : m.capacity ≤ INT_MAX) (h : bucketsMatch m) :
    bucketsMatch (freshMap capacity) ∧ bucketsMatch (step m op).1 :=
  ⟨freshMap_bucketsMatch capacity, bucketsMatch_step m op hcap hmax h⟩

/-- C10: on a map whose table has `capacity > 0` buckets, the index used by a call is inside
the table; `put` adds 1 to `numOps` exactly when the map does not hold the key and `malloc`
succeeds, and leaves it unchanged otherwise; `del` subtracts 1 exactly when the map holds the
key, and leaves it unchanged otherwise; `get` changes nothing.  After any sequence of calls on
a fresh map with `0 < capacity <= INT_MAX`, the table still has `capacity > 0` buckets and
`numOps` is the number of new-key inserts minus the number of successful deletes. -/
theorem numOps_changes (m : ts_hashmap_t) (k v : Int) (malloc_ok : Bool) (capacity : Int)
    (ops : List Op) (hm : 0 < m.capacity) (hal : tableAllocated m) (hcap : 0 < capacity)
    (hmax : capacity ≤ INT_MAX) :
    (bucketIndex m.capacity k).toNat < m.table.length ∧
    (0 < (run (freshMap capacity) ops).capacity ∧ tableAllocated (run (freshMap capacity) ops)) ∧
    (put m k v malloc_ok).1.numOps
      = (if lookup m k = none ∧ malloc_ok = true then m.numOps + 1 else m.numOps) ∧
    (del m k).1.numOps = (if lookup m k = none then m.numOps else m.numOps - 1) ∧
    (step m (Op.get k)).1 = m ∧
    (run (freshMap capacity) ops).numOps
      = (newKeyInserts (freshMap capacity) ops : Int)
          - (successfulDeletes (freshMap capacity) ops : Int) := by
  have hr := run_invariant (freshMap capacity) ops hcap (freshMap_tableAllocated capacity hmax)
    ⟨freshMap_bucketsMatch capacity, freshMap_noDupKeys capacity⟩ (freshMap_size capacity)
  refine ⟨bucketIndex_toNat_lt m k hm hal, ⟨hr.1, hr.2.1⟩, ?_, ?_, rfl, ?_⟩
  · rcases put_cases m k v malloc_ok with ⟨hl, hp⟩ | ⟨old, pre, post, hl, _, _, _, hp⟩
    · cases malloc_ok <;> simp [hp, hl]
    · simp [hp, hl]
  · rcases del_cases m k with ⟨hl, hp⟩ | ⟨old, pre, post, hl, _, _, _, hp⟩
    · simp [hp, hl]
    · simp [hp, hl]
  · rw [numOps_run]
    simp [freshMap]

/-- C2: for every sequence of `put` and `del` calls on a fresh map (all buckets empty,
`0 < capacity`, a C `int`) with every `malloc` succeeding and no stored value equal to
`INT_MAX`, the values returned by the calls are those of the reference mapping with absent
encoded as `INT_MAX`, and reading `INT_MAX` back as absent recovers the reference results
exactly. -/
theorem put_del_refine_reference (capacity : Int) (muts : List Mutation) (hcap : 0 < capacity)
    (hmax : capacity ≤ INT_MAX) (hv : ∀ v ∈ storedValues muts, v ≠ INT_MAX) :
    returns (freshMap capacity) (muts.map Mutation.toOp)
      = (refReturns emptyRef muts).map encodeAbsent ∧
    (returns (freshMap capacity) (muts.map Mutation.toOp)).map decodeAbsent
      = refReturns emptyRef muts := by
  have h := returns_refine (freshMap capacity) emptyRef muts hcap
    (freshMap_tableAllocated capacity hmax) (freshMap_noDupKeys capacity) (by
      intro k
      have hb := bucketIndex_toNat_lt (freshMap capacity) k hcap
        (freshMap_tableAllocated capacity hmax)
      simp only [lookup, bucket, emptyRef, List.getD_eq_getElem?_getD,
        List.getElem?_eq_getElem hb]
      simp [freshMap, chainFind])
  refine ⟨h, ?_⟩
  rw [h, List.map_map]
  have hd := refReturns_values emptyRef muts (by intro k v hk; simp [emptyRef] at hk) hv
  calc List.map (decodeAbsent ∘ encodeAbsent) (refReturns emptyRef muts)
      = List.map id (refReturns emptyRef muts) :=
        List.map_congr_left (fun x hx => by simpa using hd x hx)
    _ = refReturns emptyRef muts := List.map_id _

/-! ## The theorems at sample inputs -/

theorem put_del_refine_reference_witness :
    (0 < (4 : Int) ∧ (4 : Int) ≤ INT_MAX ∧ ∀ v ∈ storedValues sampleMutations, v ≠ INT_MAX) ∧
    returns (freshMap 4) (sampleMutations.map Mutation.toOp)
      = (refReturns emptyRef sampleMutations).map encodeAbsent ∧
    (returns (freshMap 4) (sampleMutations.map Mutation.toOp)).map decodeAbsent
      = refReturns emptyRef sampleMutations :=
  ⟨by decide, put_del_refine_reference 4 sampleMutations (by decide) (by decide) (by decide)⟩

theorem put_existing_key_witness :
    lookup sampleMap 1 = some 100 ∧
    ∃ pre post, bucket sampleMap (bucketIndex sampleMap.capacity 1) = pre ++ ⟨1, 100⟩ :: post ∧
      1 ∉ chainKeys pre ∧
      put sampleMap 1 7 true =
        ({ sampleMap with
            table := sampleMap.table.set (bucketIndex sampleMap.capacity 1).toNat
                      (pre ++ ⟨1, 7⟩ :: post) }, 100) ∧
      bucket (put sampleMap 1 7 true).1 (bucketIndex sampleMap.capacity 1)
        = pre ++ ⟨1, 7⟩ :: post ∧
      (put sampleMap 1 7 true).1.size = sampleMap.size ∧
      (put sampleMap 1 7 true).1.numOps = sampleMap.numOps :=
  ⟨by decide, put_existing_key sampleMap 1 100 7 true (by decide)⟩

theorem put_new_key_witness :
    (0 < sampleMap.capacity ∧ tableAllocated sampleMap ∧ lookup sampleMap 9 = none) ∧
    (put sampleMap 9 3 true).2 = INT_MAX ∧
    bucket (put sampleMap 9 3 true).1 (bucketIndex sampleMap.capacity 9)
      = bucket sampleMap (bucketIndex sampleMap.capacity 9) ++ [⟨9, 3⟩] ∧
    (∀ i, i ≠ (bucketIndex sampleMap.capacity 9).toNat →
      (put sampleMap 9 3 true).1.table.getD i [] = sampleMap.table.getD i []) ∧
    (put sampleMap 9 3 true).1.table.length = sampleMap.table.length ∧
    (put sampleMap 9 3 true).1.capacity = sampleMap.capacity ∧
    (put sampleMap 9 3 true).1.size = sampleMap.size + 1 ∧
    (put sampleMap 9 3 true).1.numOps = sampleMap.numOps + 1 :=
  ⟨by decide, put_new_key sampleMap 9 3 (by decide) (by decide) (by decide)⟩

theorem del_present_key_witness :
    (wellFormed sampleMap ∧ lookup sampleMap 1 = some 100) ∧
    (del sampleMap 1).2 = 100 ∧
    (∃ pre post, bucket sampleMap (bucketIndex sampleMap.capacity 1) = pre ++ ⟨1, 100⟩ :: post ∧
      (del sampleMap 1).1.table
        = sampleMap.table.set (bucketIndex sampleMap.capacity 1).toNat (pre ++ post)) ∧
    (∀ c ∈ (del sampleMap 1).1.table, 1 ∉ chainKeys c) ∧
    lookup (del sampleMap 1).1 1 = none ∧
    (del sampleMap 1).1.size = sampleMap.size - 1 ∧
    (del sampleMap 1).1.numOps = sampleMap.numOps - 1 ∧
    get (del sampleMap 1).1 1 = INT_MAX :=
  ⟨by decide, del_present_key sampleMap 1 100 (by decide) (by decide)⟩

theorem del_missing_key_witness :
    (0 < sampleMap.capacity ∧ tableAllocated sampleMap ∧ lookup sampleMap 9 = none) ∧
    (bucketIndex sampleMap.capacity 9).toNat < sampleMap.table.length ∧
    del sampleMap 9 = (sampleMap, INT_MAX) :=
  ⟨by decide, del_missing_key sampleMap 9 (by decide) (by decide) (by decide)⟩

theorem size_counts_entries_witness :
    (0 < (4 : Int) ∧ (4 : Int) ≤ INT_MAX) ∧
    (run (freshMap 4) sampleOps).size = entryCount (run (freshMap 4) sampleOps) ∧
    entryCount (run (freshMap 4) sampleOps) = distinctKeys (run (freshMap 4) sampleOps) :=
  ⟨by decide, size_counts_entries 4 sampleOps (by decide) (by decide)⟩

theorem noDupKeys_invariant_witness :
    (0 < (4 : Int) ∧ (4 : Int) ≤ INT_MAX ∧ noDupKeys sampleMap) ∧
    noDupKeys (freshMap 4) ∧
    noDupKeys (step sampleMap (Op.put 9 3 true)).1 ∧
    noDupKeys (run (freshMap 4) sampleOps) ∧
    ∀ k, ((allEntries (run (freshMap 4) sampleOps)).map ts_entry_t.key).count k ≤ 1 :=
  ⟨by decide,
    noDupKeys_invariant 4 sampleOps sampleMap (Op.put 9 3 true) (by decide) (by decide)
      (by decide)⟩

theorem bucketsMatch_invariant_witness :
    (0 < sampleMap.capacity ∧ sampleMap.capacity ≤ INT_MAX ∧ bucketsMatch sampleMap) ∧
    bucketsMatch (freshMap 4) ∧
    bucketsMatch (step sampleMap (Op.put (-7) 3 true)).1 :=
  ⟨by decide,
    bucketsMatch_invariant 4 sampleMap (Op.put (-7) 3 true) (by decide) (by decide)
      (by decide)⟩

/-! ## Construction, allocation failure and the sentinel -/

/-- C12: `initmap(4)` with both allocations succeeding sets `capacity = 4`, `size = 0` and
`numOps = 0`, but stores nothing in the table: when `malloc` returns the block `staleBlock`,
bucket 0 of the new map is not the empty chain and the map is not the fresh empty map.  For
every capacity and block the table of the result is the block as `malloc` returned it; the
result is the fresh empty map only when that block happens to be all `NULL`. -/
theorem initmap_leaves_table_unset :
    initmap 4 true (some staleBlock)
      = some { table := staleBlock, numOps := 0, capacity := 4, size := 0 } ∧
    (∃ m, initmap 4 true (some staleBlock) = some m ∧ m.capacity = 4 ∧ m.size = 0 ∧
      m.numOps = 0 ∧ m.table.length = 4 ∧ bucket m 0 = [⟨7, 7⟩] ∧ bucket m 0 ≠ []) ∧
    initmap 4 true (some staleBlock) ≠ some (freshMap 4) ∧
    (∀ capacity block, initmap capacity true (some block)
      = some { table := block, numOps := 0, capacity := capacity, size := 0 }) ∧
    (∀ capacity, initmap capacity true (some (List.replicate capacity.toNat []))
      = some (freshMap capacity)) := by
  refine ⟨rfl, ⟨_, rfl, rfl, rfl, rfl, rfl, rfl, by decide⟩, by decide, ?_, ?_⟩
  · intro capacity block; rfl
  · intro capacity; rfl

/-- C13: when the table has `capacity > 0` buckets, the map does not hold key `k` and `malloc`
of the new entry fails, the index read by `put` is inside the table, `put(map, k, v)` returns
`INT_MAX` and the state after the call is the state before it: every chain, `size` and
`numOps`. -/
theorem put_malloc_failure (m : ts_hashmap_t) (k v : Int) (hcap : 0 < m.capacity)
    (hal : tableAllocated m) (h : lookup m k = none) :
    (bucketIndex m.capacity k).toNat < m.table.length ∧ put m k v false = (m, INT_MAX) := by
  refine ⟨bucketIndex_toNat_lt m k hcap hal, ?_⟩
  rcases put_cases m k v false with ⟨_, hp⟩ | ⟨old, pre, post, hl, _, _, _, _⟩
  · rw [hp]; rfl
  · rw [h] at hl; cases hl

/-- C15: on a map whose table has `capacity > 0` buckets, the index read by `del` is inside
the table and `del(map, k)` returns `INT_MAX` exactly when the map does not hold `k` or holds
it with the value `INT_MAX`.  The map `sentinelMap` holds key 0 with value `INT_MAX`: `del` and
`put` on key 0 return `INT_MAX`, as they do on the empty map of capacity 1, although `del`
removes the entry and decrements `size`. -/
theorem del_sentinel_collision (m : ts_hashmap_t) (k : Int) (hcap : 0 < m.capacity)
    (hal : tableAllocated m) :
    (bucketIndex m.capacity k).toNat < m.table.length ∧
    ((del m k).2 = INT_MAX ↔ lookup m k = none ∨ lookup m k = some INT_MAX) ∧
    (0 < sentinelMap.capacity ∧ tableAllocated sentinelMap) ∧
    (wellFormed sentinelMap ∧ lookup sentinelMap 0 = some INT_MAX ∧
      (del sentinelMap 0).2 = INT_MAX ∧ (del (freshMap 1) 0).2 = INT_MAX ∧
      (∀ v, (put sentinelMap 0 v true).2 = INT_MAX) ∧
      (∀ v, (put (freshMap 1) 0 v true).2 = INT_MAX) ∧
      (del sentinelMap 0).1.table = [[]] ∧
      (del sentinelMap 0).1.size = sentinelMap.size - 1) := by
  refine ⟨bucketIndex_toNat_lt m k hcap hal, ?_, by decide, ?_⟩
  · rw [del_returns]
    cases h : lookup m k with
    | none => simp [encodeAbsent]
    | some x => simp [encodeAbsent]
  · refine ⟨by decide, by decide, by decide, by decide, ?_, ?_, by decide, by decide⟩
    · intro v
      rw [put_returns]
      decide
    · intro v
      rw [put_returns]
      decide

/-- C16: for a 32-bit key and `0 < capacity <= INT_MAX`, the index computed by `get`, `put`
and `del` is `(key mod 2^32) mod capacity`, that is the key itself when it is non-negative and
`key + 2^32` when it is negative, reduced modulo `capacity`; it satisfies
`0 <= index < capacity`, and in a table of `capacity` bucket heads it is in bounds. -/
theorem bucketIndex_in_bounds (capacity key : Int) (hkey : -2147483648 ≤ key ∧ key ≤ INT_MAX)
    (hcap : 0 < capacity) (hmax : capacity ≤ INT_MAX) :
    bucketIndex capacity key = (key % 4294967296) % capacity ∧
    bucketIndex capacity key = (if 0 ≤ key then key else key + 4294967296) % capacity ∧
    0 ≤ bucketIndex capacity key ∧
    bucketIndex capacity key < capacity ∧
    (∀ m : ts_hashmap_t, m.capacity = capacity → m.table.length = capacity.toNat →
      (bucketIndex m.capacity key).toNat < m.table.length) := by
  have h1 := bucketIndex_eq capacity key hcap hmax
  have h2 := bucketIndex_nonneg capacity key hcap hmax
  have h3 := bucketIndex_lt capacity key hcap hmax
  refine ⟨h1, ?_, h2, h3, ?_⟩
  · rw [h1]
    unfold INT_MAX at hkey
    by_cases h0 : 0 ≤ key
    · rw [if_pos h0, Int.emod_eq_of_lt h0 (by omega)]
    · rw [if_neg h0]
      have : key % 4294967296 = key + 4294967296 := by
        rw [← Int.add_emod_self]
        exact Int.emod_eq_of_lt (by omega) (by omega)
      rw [this]
  · intro m hc hl
    rw [hc, hl]
    omega

/-- C17: for every map whose table has `capacity > 0` buckets and every key, stored or not,
the index read by `get` is inside the table and `get(map, k)` returns `INT_MAX`. -/
theorem get_always_absent (m : ts_hashmap_t) (k : Int) (hcap : 0 < m.capacity)
    (hal : tableAllocated m) :
    (bucketIndex m.capacity k).toNat < m.table.length ∧ get m k = INT_MAX := by
  refine ⟨bucketIndex_toNat_lt m k hcap hal, ?_⟩
  unfold get
  exact get_loop_eq k _

/-! ## The locking discipline -/

theorem get_loop_events_discipline (key : Int) (c : Chain) :
    heldThenReleased (get_loop_events key c ++ [LockEvent.release])
      = (chainFind key c).isNone := by
  induction c with
  | nil => rfl
  | cons e next ih =>
    by_cases h : e.key = key
    · simp [get_loop_events, chainFind, h, heldThenReleased]
    · simp [get_loop_events, chainFind, h, heldThenReleased, ih]

theorem put_loop_events_discipline (key : Int) (c : Chain) (tail : List LockEvent)
    (ht : heldThenReleased tail = true) :
    heldThenReleased ((put_loop_events key c).1 ++
      (if (put_loop_events key c).2 then [] else tail)) = true := by
  induction c with
  | nil => simpa [put_loop_events] using ht
  | cons e next ih =>
    by_cases h : e.key = key
    · simp [put_loop_events, h, heldThenReleased]
    · simpa [put_loop_events, h, heldThenReleased] using ih

theorem del_loop_events_discipline (key : Int) (c : Chain) :
    heldThenReleased ((del_loop_events key c).1 ++
      (if (del_loop_events key c).2 then [] else [LockEvent.release])) = true := by
  induction c with
  | nil => simp [del_loop_events, heldThenReleased]
  | cons e next ih =>
    by_cases h : e.key = key
    · simp [del_loop_events, h, heldThenReleased]
    · simpa [del_loop_events, h, heldThenReleased] using ih

/-- C14: `get(sampleMap, 1)`, a call that finds its key, unlocks the mutex in the loop, reads
`entry->next` and the next entry after that, and unlocks a second time before returning, so
the locking discipline fails.  In general `get` keeps the discipline exactly when the key is
not found, while `put` (key found, key new, `malloc` failed) and `del` keep it on every
path. -/
theorem get_releases_lock_twice :
    get_events sampleMap 1
      = [LockEvent.acquire, LockEvent.touch, LockEvent.touch, LockEvent.release,
         LockEvent.touch, LockEvent.touch, LockEvent.touch, LockEvent.release] ∧
    lockDiscipline (get_events sampleMap 1) = false ∧
    (∀ m k, lockDiscipline (get_events m k) = (lookup m k).isNone) ∧
    (∀ m k malloc_ok, lockDiscipline (put_events m k malloc_ok) = true) ∧
    (∀ m k, lockDiscipline (del_events m k) = true) := by
  refine ⟨by decide, by decide, ?_, ?_, ?_⟩
  · intro m k
    simp only [get_events, lockDiscipline, heldThenReleased, lookup]
    exact get_loop_events_discipline k _
  · intro m k malloc_ok
    simp only [put_events, lockDiscipline, heldThenReleased]
    apply put_loop_events_discipline
    cases malloc_ok <;> rfl
  · intro m k
    simp only [del_events, lockDiscipline, heldThenReleased]
    exact del_loop_events_discipline k _

/-! ## Other keys, the counters, and undoing an insert -/

theorem set_getD_self (l : List Chain) (i : Nat) : l.set i (l.getD i []) = l := by
  induction l generalizing i with
  | nil => rfl
  | cons a l ih =>
    cases i with
    | zero => rfl
    | succ i =>
      have h := ih i
      simp only [List.getD_cons_succ, List.set_cons_succ, h]

theorem filter_other_keys_split (k x : Int) (pre post : Chain) :
    (pre ++ ⟨k, x⟩ :: post).filter (fun e => decide (e.key ≠ k))
      = (pre ++ post).filter (fun e => decide (e.key ≠ k)) := by
  simp [List.filter_append, List.filter_cons]

theorem filter_other_keys_self (k : Int) (c : Chain) (h : k ∉ chainKeys c) :
    c.filter (fun e => decide (e.key ≠ k)) = c := by
  rw [List.filter_eq_self]
  intro e he
  have : e.key ≠ k := fun hh => h ((mem_chainKeys k c).2 ⟨e, he, hh⟩)
  simpa using this

theorem lookup_put_ne (m : ts_hashmap_t) (k v k2 : Int) (malloc_ok : Bool)
    (hcap : 0 < m.capacity) (hal : tableAllocated m) (hne : k2 ≠ k) :
    lookup (put m k v malloc_ok).1 k2 = lookup m k2 := by
  cases malloc_ok with
  | true => rw [lookup_put m k v k2 hcap hal, if_neg hne]
  | false =>
    have h0 := fun x => bucketIndex_nonneg m.capacity x hcap hal.1
    rcases put_cases m k v false with ⟨_, hp⟩ | ⟨old, pre, post, _, hc, _, _, hp⟩
    · rw [hp]; rfl
    · rw [hp]
      refine lookup_set_ne m _ k k2 _ rfl rfl ?_ (h0 k) (h0 k2)
      rw [hc]
      exact chainFind_update_ne k k2 v old pre post hne

theorem counters_step (m : ts_hashmap_t) (op : Op) :
    (step m op).1.numOps - (step m op).1.size = m.numOps - m.size := by
  cases op with
  | put k v ok =>
    rcases put_cases m k v ok with ⟨_, hp⟩ | ⟨old, pre, post, _, _, _, _, hp⟩
    · cases ok
      · simp only [step, hp]; rfl
      · simp only [step, hp, if_true]; omega
    · simp only [step, hp]
  | get k => rfl
  | del k =>
    rcases del_cases m k with ⟨_, hp⟩ | ⟨old, pre, post, _, _, _, _, hp⟩
    · simp only [step, hp]
    · simp only [step, hp]; omega

theorem counters_run (m : ts_hashmap_t) (ops : List Op) :
    (run m ops).numOps - (run m ops).size = m.numOps - m.size := by
  induction ops generalizing m with
  | nil => rfl
  | cons op ops ih =>
    simp only [run]
    rw [ih, counters_step]

/-- C11: for a well-formed map with a table of `capacity > 0` buckets and keys `k2 != k`,
whether or not they share a bucket: after `put(map, k, v)` (whatever `malloc` does) and after
`del(map, k)` the map holds for `k2` exactly what it held before; the entries of `k`'s bucket
with a key other than `k` are the same and in the same order (after `del` they are the whole
chain); and every other bucket is identical. -/
theorem other_keys_untouched (m : ts_hashmap_t) (k k2 v : Int) (malloc_ok : Bool)
    (hcap : 0 < m.capacity) (hal : tableAllocated m) (hwf : wellFormed m) (hne : k2 ≠ k) :
    lookup (put m k v malloc_ok).1 k2 = lookup m k2 ∧
    lookup (del m k).1 k2 = lookup m k2 ∧
    (bucket (put m k v malloc_ok).1 (bucketIndex m.capacity k)).filter
        (fun e => decide (e.key ≠ k))
      = (bucket m (bucketIndex m.capacity k)).filter (fun e => decide (e.key ≠ k)) ∧
    bucket (del m k).1 (bucketIndex m.capacity k)
      = (bucket m (bucketIndex m.capacity k)).filter (fun e => decide (e.key ≠ k)) ∧
    (∀ i, i ≠ (bucketIndex m.capacity k).toNat →
      (put m k v malloc_ok).1.table.getD i [] = m.table.getD i [] ∧
      (del m k).1.table.getD i [] = m.table.getD i []) := by
  have hb := bucketIndex_toNat_lt m k hcap hal
  have hnd := bucket_keys_nodup m (bucketIndex m.capacity k) hwf.2
  have hother : ∀ (i : Nat) (c : Chain), i ≠ (bucketIndex m.capacity k).toNat →
      (m.table.set (bucketIndex m.capacity k).toNat c).getD i [] = m.table.getD i [] := by
    intro i c hi
    have hi2 : ¬ ((bucketIndex m.capacity k).toNat = i ∧
        (bucketIndex m.capacity k).toNat < m.table.length) := fun hh => hi hh.1.symm
    simp only [getD_set, hi2, if_false]
  refine ⟨lookup_put_ne m k v k2 malloc_ok hcap hal hne, ?_, ?_, ?_, ?_⟩
  · rw [lookup_del m k k2 hcap hal hwf.2, if_neg hne]
  · rcases put_cases m k v malloc_ok with ⟨hl, hp⟩ | ⟨old, pre, post, _, hc, _, _, hp⟩
    · rw [hp]
      cases malloc_ok
      · rfl
      · simp only [if_true, bucket, getD_set, hb, and_self]
        simp [List.filter_append, List.filter_cons]
    · rw [hp, hc]
      simp only [bucket, getD_set, hb, and_self, if_true]
      rw [filter_other_keys_split, filter_other_keys_split]
  · rcases del_cases m k with ⟨hl, hp⟩ | ⟨old, pre, post, _, hc, hpre, _, hp⟩
    · rw [hp]
      exact (filter_other_keys_self k _ ((chainFind_eq_none k _).1 hl)).symm
    · rw [hp, hc]
      simp only [bucket, getD_set, hb, and_self, if_true]
      rw [filter_other_keys_split]
      rw [hc, chainKeys_append] at hnd
      have hpost : k ∉ chainKeys post := by
        have h2 := (List.nodup_append.1 hnd).2.1
        simp only [chainKeys, List.map_cons, List.nodup_cons] at h2
        exact h2.1
      refine (filter_other_keys_self k _ ?_).symm
      rw [chainKeys_append, List.mem_append]
      exact fun hh => hh.elim hpre hpost
  · intro i hi
    constructor
    · rcases put_cases m k v malloc_ok with ⟨hl, hp⟩ | ⟨old, pre, post, _, hc, _, _, hp⟩
      · rw [hp]
        cases malloc_ok
        · rfl
        · exact hother i _ hi
      · rw [hp]; exact hother i _ hi
    · rcases del_cases m k with ⟨hl, hp⟩ | ⟨old, pre, post, _, hc, hpre, _, hp⟩
      · rw [hp]
      · rw [hp]; exact hother i _ hi

/-- C18: in every state reached from a fresh map (all buckets empty, `0 < capacity`, a C
`int`) by `put`, `get` and `del` calls, `numOps` equals `size`, equals the number of entries,
is not negative, and is 0 when the table has no entry.  More generally a run from any state
with `numOps = size`, such as any result of `initmap`, ends with `numOps = size`. -/
theorem numOps_eq_size (capacity : Int) (ops : List Op) (m : ts_hashmap_t)
    (hcap : 0 < capacity) (hmax : capacity ≤ INT_MAX) (hm : m.numOps = m.size) :
    (run (freshMap capacity) ops).numOps = (run (freshMap capacity) ops).size ∧
    (run (freshMap capacity) ops).numOps = (entryCount (run (freshMap capacity) ops) : Int) ∧
    0 ≤ (run (freshMap capacity) ops).numOps ∧
    (allEntries (run (freshMap capacity) ops) = [] → (run (freshMap capacity) ops).numOps = 0) ∧
    (run m ops).numOps = (run m ops).size := by
  have hr := run_invariant (freshMap capacity) ops hcap (freshMap_tableAllocated capacity hmax)
    ⟨freshMap_bucketsMatch capacity, freshMap_noDupKeys capacity⟩ (freshMap_size capacity)
  have h1 := counters_run (freshMap capacity) ops
  have h2 := counters_run m ops
  have h3 : (freshMap capacity).numOps - (freshMap capacity).size = 0 := rfl
  have hsz := hr.2.2.2
  refine ⟨by omega, by omega, by omega, ?_, by omega⟩
  intro hempty
  have : entryCount (run (freshMap capacity) ops) = 0 := by
    unfold entryCount
    rw [← List.length_flatten]
    unfold allEntries at hempty
    rw [hempty]; rfl
  omega

/-- C19: when the table has `capacity > 0` buckets and the map does not hold key `k`,
`put(map, k, v)` with a successful `malloc` followed by `del(map, k)` gives back the state
before the `put` (every chain with the same entries in the same order, `size`, `numOps`), and
the `del` returns `v`. -/
theorem put_then_del_restores (m : ts_hashmap_t) (k v : Int) (hcap : 0 < m.capacity)
    (hal : tableAllocated m) (h : lookup m k = none) :
    del (put m k v true).1 k = (m, v) := by
  have hb := bucketIndex_toNat_lt m k hcap hal
  have hk := (chainFind_eq_none k _).1 h
  have hn : put_loop k v (bucket m (bucketIndex m.capacity k)) = none :=
    put_loop_of_not_mem k v _ hk
  have hput : put m k v true =
      ({ m with table := m.table.set (bucketIndex m.capacity k).toNat
                  (bucket m (bucketIndex m.capacity k) ++ [⟨k, v⟩]),
                size := m.size + 1, numOps := m.numOps + 1 }, INT_MAX) := by
    simp only [put, hn, setBucket, if_true]
  rw [hput]
  simp only [del, bucket, setBucket, getD_set, hb, and_self, if_true]
  have hd := del_loop_split k v (m.table.getD (bucketIndex m.capacity k).toNat []) [] hk
  rw [hd]
  simp only [List.append_nil, List.set_set, set_getD_self]
  cases m
  simp

/-! ## The later theorems at sample inputs -/

theorem other_keys_untouched_witness :
    (0 < sampleMap.capacity ∧ tableAllocated sampleMap ∧ wellFormed sampleMap ∧
      (5 : Int) ≠ 1 ∧ bucketIndex sampleMap.capacity 5 = bucketIndex sampleMap.capacity 1) ∧
    lookup (put sampleMap 1 7 true).1 5 = lookup sampleMap 5 ∧
    lookup (del sampleMap 1).1 5 = lookup sampleMap 5 ∧
    (bucket (put sampleMap 1 7 true).1 (bucketIndex sampleMap.capacity 1)).filter
        (fun e => decide (e.key ≠ 1))
      = (bucket sampleMap (bucketIndex sampleMap.capacity 1)).filter
          (fun e => decide (e.key ≠ 1)) ∧
    bucket (del sampleMap 1).1 (bucketIndex sampleMap.capacity 1)
      = (bucket sampleMap (bucketIndex sampleMap.capacity 1)).filter
          (fun e => decide (e.key ≠ 1)) ∧
    (∀ i, i ≠ (bucketIndex sampleMap.capacity 1).toNat →
      (put sampleMap 1 7 true).1.table.getD i [] = sampleMap.table.getD i [] ∧
      (del sampleMap 1).1.table.getD i [] = sampleMap.table.getD i []) :=
  ⟨by decide,
    other_keys_untouched sampleMap 1 5 7 true (by decide) (by decide) (by decide) (by decide)⟩

theorem put_malloc_failure_witness :
    (0 < sampleMap.capacity ∧ tableAllocated sampleMap ∧ lookup sampleMap 9 = none) ∧
    (bucketIndex sampleMap.capacity 9).toNat < sampleMap.table.length ∧
    put sampleMap 9 3 false = (sampleMap, INT_MAX) :=
  ⟨by decide, put_malloc_failure sampleMap 9 3 (by decide) (by decide) (by decide)⟩

theorem bucketIndex_in_bounds_witness :
    ((-2147483648 : Int) ≤ -1 ∧ (-1 : Int) ≤ INT_MAX ∧ 0 < (4 : Int) ∧ (4 : Int) ≤ INT_MAX) ∧
    bucketIndex 4 (-1) = ((-1) % 4294967296) % 4 ∧
    bucketIndex 4 (-1) = (if (0 : Int) ≤ -1 then -1 else -1 + 4294967296) % 4 ∧
    0 ≤ bucketIndex 4 (-1) ∧
    bucketIndex 4 (-1) < 4 ∧
    (∀ m : ts_hashmap_t, m.capacity = 4 → m.table.length = (4 : Int).toNat →
      (bucketIndex m.capacity (-1)).toNat < m.table.length) :=
  ⟨by decide, bucketIndex_in_bounds 4 (-1) (by decide) (by decide) (by decide)⟩

theorem numOps_eq_size_witness :
    (0 < (4 : Int) ∧ (4 : Int) ≤ INT_MAX ∧ sampleMap.numOps = sampleMap.size) ∧
    (run (freshMap 4) sampleOps).numOps = (run (freshMap 4) sampleOps).size ∧
    (run (freshMap 4) sampleOps).numOps = (entryCount (run (freshMap 4) sampleOps) : Int) ∧
    0 ≤ (run (freshMap 4) sampleOps).numOps ∧
    (allEntries (run (freshMap 4) sampleOps) = [] → (run (freshMap 4) sampleOps).numOps = 0) ∧
    (run sampleMap sampleOps).numOps = (run sampleMap sampleOps).size :=
  ⟨by decide, numOps_eq_size 4 sampleOps sampleMap (by decide) (by decide) (by decide)⟩

theorem put_then_del_restores_witness :
    (0 < sampleMap.capacity ∧ tableAllocated sampleMap ∧ lookup sampleMap 9 = none) ∧
    del (put sampleMap 9 3 true).1 9 = (sampleMap, 3) :=
  ⟨by decide, put_then_del_restores sampleMap 9 3 (by decide) (by decide) (by decide)⟩

theorem numOps_changes_witness :
    (0 < sampleMap.capacity ∧ tableAllocated sampleMap ∧ 0 < (4 : Int) ∧ (4 : Int) ≤ INT_MAX) ∧
    (bucketIndex sampleMap.capacity 9).toNat < sampleMap.table.length ∧
    (0 < (run (freshMap 4) sampleOps).capacity ∧ tableAllocated (run (freshMap 4) sampleOps)) ∧
    (put sampleMap 9 3 true).1.numOps
      = (if lookup sampleMap 9 = none ∧ true = true then sampleMap.numOps + 1
         else sampleMap.numOps) ∧
    (del sampleMap 9).1.numOps
      = (if lookup sampleMap 9 = none then sampleMap.numOps else sampleMap.numOps - 1) ∧
    (step sampleMap (Op.get 9)).1 = sampleMap ∧
    (run (freshMap 4) sampleOps).numOps
      = (newKeyInserts (freshMap 4) sampleOps : Int)
          - (successfulDeletes (freshMap 4) sampleOps : Int) :=
  ⟨by decide,
    numOps_changes sampleMap 9 3 true 4 sampleOps (by decide) (by decide) (by decide)
      (by decide)⟩

theorem del_sentinel_collision_witness :
    (0 < sentinelMap.capacity ∧ tableAllocated sentinelMap) ∧
    ((del sentinelMap 0).2 = INT_MAX ↔
      lookup sentinelMap 0 = none ∨ lookup sentinelMap 0 = some INT_MAX) :=
  ⟨by decide, (del_sentinel_collision sentinelMap 0 (by decide) (by decide)).2.1⟩

theorem get_always_absent_witness :
    (0 < sampleMap.capacity ∧ tableAllocated sampleMap ∧ lookup sampleMap 1 = some 100) ∧
    (bucketIndex sampleMap.capacity 1).toNat < sampleMap.table.length ∧
    get sampleMap 1 = INT_MAX :=
  ⟨by decide, get_always_absent sampleMap 1 (by decide) (by decide)⟩

end TsHashmap
